import Mathlib

/-!
Verification of the word-relation page logic in `src/ps5.js`.

The JavaScript source is shallowly embedded as executable Lean definitions:

* JavaScript values that occur as grouping keys (numbers, strings,
  `undefined`) are modelled by `PS5.JSVal`; numbers are modelled as `Int`
  since every number in this program is an integer (syllable counts).
* A JavaScript `Map` is modelled as an association list in insertion
  order (`insertGroup`, `buildMap`, `mapGet`).
* A plain JavaScript object is modelled as an association list of
  string-keyed properties in property-creation order (`objSet`, `objGet`),
  since `result[key] = v` coerces `key` with `ToString`, overwrites the
  value of an existing property in place, and appends new properties.
* `Array.prototype.sort()` with no comparator is, per the ECMAScript
  specification, a stable sort in which `undefined` elements are placed
  last and the remaining elements are ordered by comparing their
  `ToString` images code unit by code unit.  The unique such stable sorted
  permutation is computed by `List.insertionSort` with the relation
  `keyLE` below.  (Lean `Char`s are compared by code point, which agrees
  with UTF-16 code-unit order on strings of characters below U+10000;
  every string appearing in this program is of that form.)
* `for (k in obj)` enumerates string keys per `OrdinaryOwnPropertyKeys`:
  keys that are canonical array indices first, in ascending numeric
  order, then the remaining keys in property-creation order (`enumKeys`).
* DOM reads/writes and the network are made explicit: the current value
  of the `#word_input` field is passed as an explicit argument, display
  updates are returned as values, and the outcome of
  `fetch(url).then(r => r.json())` is an explicit `FetchOutcome`.
-/

namespace PS5

/-- JavaScript values used as grouping keys: numbers (always integers in
this program), strings, and `undefined`. -/
inductive JSVal where
  | num (n : Int)
  | str (s : String)
  | undef
  deriving DecidableEq, Repr

/-- JavaScript `ToString` on the values of `JSVal`; integers print in
decimal as in JS, and `undefined` prints as `"undefined"`. -/
def jsToString : JSVal → String
  | .num n => toString n
  | .str s => s
  | .undef => "undefined"

/-- Lexicographic comparison of character lists by code point, the order
used by the ECMAScript abstract string comparison. -/
def charListLEb : List Char → List Char → Bool
  | [], _ => true
  | _ :: _, [] => false
  | c :: cs, d :: ds =>
    if c.toNat < d.toNat then true
    else if d.toNat < c.toNat then false
    else charListLEb cs ds

/-- String comparison as performed by the default `Array.prototype.sort`
comparator on non-`undefined` elements. -/
def strLEb (s t : String) : Bool :=
  charListLEb s.data t.data

/-- Default-sort comparator of the ECMAScript `SortCompare`: `undefined`
elements compare greater than everything else, other elements by their
`ToString` images. -/
def keyLEb : JSVal → JSVal → Bool
  | _, .undef => true
  | .undef, _ => false
  | a, b => strLEb (jsToString a) (jsToString b)

/-- Propositional form of `keyLEb`, for use with `List.insertionSort`. -/
def keyLE (a b : JSVal) : Prop :=
  keyLEb a b = true

instance : DecidableRel keyLE := fun a b => instDecidableEqBool (keyLEb a b) true

/-- Insertion of one object into the `Map` of groups, as in the loop body
of `groupBy` (`src/ps5.js` lines 23-30): if the group exists the object is
pushed onto it, otherwise a fresh singleton group is appended in `Map`
insertion order. -/
def insertGroup {α : Type} : List (JSVal × List α) → JSVal → α → List (JSVal × List α)
  | [], k, x => [(k, [x])]
  | (k₀, g) :: r, k, x =>
    if k₀ = k then (k₀, g ++ [x]) :: r else (k₀, g) :: insertGroup r k x

/-- The `Map` of groups built by the first loop of `groupBy`. -/
def buildMap {α : Type} (property : α → JSVal) (objects : List α) : List (JSVal × List α) :=
  objects.foldl (fun m x => insertGroup m (property x) x) []

/-- `Map.prototype.get`, with `[]` standing for a missing key (the sorted
loop of `groupBy` only looks up present keys). -/
def mapGet {α : Type} : List (JSVal × List α) → JSVal → List α
  | [], _ => []
  | (k, g) :: r, v => if k = v then g else mapGet r v

/-- Property assignment `o[k] = v` on a plain object: an existing
property's value is replaced in place (its creation position is kept), a
new property is appended. -/
def objSet {β : Type} : List (String × β) → String → β → List (String × β)
  | [], k, v => [(k, v)]
  | (k₀, v₀) :: r, k, v =>
    if k₀ = k then (k₀, v) :: r else (k₀, v₀) :: objSet r k v

/-- Property read `o[s]` on a plain object. -/
def objGet {β : Type} : List (String × β) → String → Option β
  | [], _ => none
  | (k, v) :: r, s => if k = s then some v else objGet r s

/-- The property keys of a plain object in creation order. -/
def objKeys {β : Type} (o : List (String × β)) : List String :=
  o.map Prod.fst

/-- The result of `Array.from(groupedObjects.keys()).sort()`: the unique
stable sort of the `Map` keys by the default comparator. -/
def sortKeys (ks : List JSVal) : List JSVal :=
  List.insertionSort keyLE ks

/-- Shallow embedding of `groupBy` (`src/ps5.js` lines 14-38).  The
string form of the property argument is resolved by the source itself to
the selector function `fun obj => obj[propName]`, so the embedding takes
the resolved selector.  The `Map` of groups is built in input order, its
keys are sorted with the default comparator, and the groups are written
into a plain object keyed by the `ToString` image of each key. -/
def groupBy {α : Type} (objects : List α) (property : α → JSVal) : List (String × List α) :=
  let m := buildMap property objects
  (sortKeys (m.map Prod.fst)).foldl (fun r k => objSet r (jsToString k) (mapGet m k)) []

/-- Decimal value of a digit string, used to order array-index keys. -/
def digitsVal (l : List Char) : Nat :=
  l.foldl (fun acc c => acc * 10 + (c.toNat - 48)) 0

/-- Whether a string is a canonical array index in the ECMAScript sense:
a canonical decimal integer (no leading zeros) whose value is at most
2^32 - 2.  Such property keys enumerate before all others, in ascending
numeric order. -/
def isArrayIndexStr (s : String) : Bool :=
  !s.data.isEmpty && s.data.all (fun c => c.isDigit) &&
    (s = "0" || s.data.head? ≠ some '0') && digitsVal s.data ≤ 4294967294

/-- Numeric order on array-index keys. -/
def idxLE (s t : String) : Prop :=
  digitsVal s.data ≤ digitsVal t.data

instance : DecidableRel idxLE := fun _ _ => Nat.decLe _ _

/-- The key sequence produced by `for (k in obj)` / `Object.keys`:
canonical array-index keys first in ascending numeric order, then the
remaining keys in property-creation order. -/
def enumKeys {β : Type} (o : List (String × β)) : List String :=
  List.insertionSort idxLE ((objKeys o).filter isArrayIndexStr) ++
    (objKeys o).filter (fun s => !isArrayIndexStr s)

/-- Concatenation of the groups of a grouped object in the order the
source wrote them, which is the sorted key order of `groupBy`. -/
def flattenGroups {α : Type} : List (String × List α) → List α
  | [] => []
  | e :: o => e.2 ++ flattenGroups o

/-- The last element of a list satisfying a predicate.  Characterizes
which `Map` group survives into a plain-object property when several
sorted keys share one string form (later assignments overwrite). -/
def lastMatch {α : Type} (q : α → Bool) : List α → Option α
  | [] => none
  | k :: ks => (lastMatch q ks).elim (if q k then some k else none) some

/-- The `Map` key whose group ends up stored under the property `s` of
`groupBy`'s result: the last key in sorted order whose string form is
`s`. -/
def survivor {α : Type} (xs : List α) (p : α → JSVal) (s : String) : Option JSVal :=
  lastMatch (fun v => decide (jsToString v = s)) (sortKeys ((buildMap p xs).map Prod.fst))

/-- One record of the Datamuse response as consumed by the renderers:
only `word` and `numSyllables` are read.  `numSyllables` is kept as a raw
`JSVal` because reading a missing field in JS yields `undefined`. -/
structure WordResult where
  word : String
  numSyllables : JSVal
  deriving DecidableEq, Repr

/-- The content written into the `#word_output` region by the two
renderers: the no-results indicator, the grouped rhyme sections (heading
and word list per syllable group), or the flat synonym list. -/
inductive Display where
  | noResults
  | rhymeSections (header : String) (sections : List (String × List String))
  | synonymList (header : String) (words : List String)
  deriving DecidableEq, Repr

/-- The words that carry a save control in a rendered display: one
`(Save)` button is attached per rendered word (`generatesavedbtn`). -/
def saveControls : Display → List String
  | .noResults => []
  | .rhymeSections _ secs => flattenGroups secs
  | .synonymList _ ws => ws

/-- Shallow embedding of `showRhymes` (`src/ps5.js` lines 125-153): empty
data renders the no-results indicator; otherwise the data is grouped by
`numSyllables` and each group is rendered, in `for...in` key order, as a
heading plus its words, each word with a save control. -/
def showRhymes (wordInputValue : String) (data : List WordResult) : Display :=
  if data.length = 0 then Display.noResults
  else
    let grouped := groupBy data (fun r => r.numSyllables)
    Display.rhymeSections ("Words that rhyme with " ++ wordInputValue)
      ((enumKeys grouped).map (fun syllable =>
        ("Syllables: " ++ syllable, ((objGet grouped syllable).getD []).map (fun r => r.word))))

/-- Shallow embedding of `showSynonyms` (`src/ps5.js` lines 155-172):
empty data renders the no-results indicator; otherwise a flat list of
words in input order, each with a save control. -/
def showSynonyms (wordInputValue : String) (data : List WordResult) : Display :=
  if data.length = 0 then Display.noResults
  else
    Display.synonymList ("Words with a similar meaning to " ++ wordInputValue)
      (data.map (fun r => r.word))

/-- Uppercase hexadecimal digit, as used by percent-encoding. -/
def hexDigit (n : Nat) : Char :=
  if n < 10 then Char.ofNat (48 + n) else Char.ofNat (55 + n)

/-- UTF-8 bytes of a code point, for percent-encoding. -/
def utf8Bytes (n : Nat) : List Nat :=
  if n < 128 then [n]
  else if n < 2048 then [192 + n / 64, 128 + n % 64]
  else if n < 65536 then [224 + n / 4096, 128 + (n / 64) % 64, 128 + n % 64]
  else [240 + n / 262144, 128 + (n / 4096) % 64, 128 + (n / 64) % 64, 128 + n % 64]

/-- Percent-encoding of one byte: a percent sign and two uppercase hex
digits. -/
def percentByte (b : Nat) : String :=
  String.mk ['%', hexDigit (b / 16), hexDigit (b % 16)]

/-- The `application/x-www-form-urlencoded` encoding of one character, as
produced by `URLSearchParams.toString()`: ASCII alphanumerics and
`*-._` are kept, a space becomes `+`, and every other character's UTF-8
bytes are percent-encoded. -/
def formEncodeChar (c : Char) : String :=
  if c = ' ' then "+"
  else if c.isAlphanum || c = '*' || c = '-' || c = '.' || c = '_' then String.mk [c]
  else String.join ((utf8Bytes c.toNat).map percentByte)

/-- The `application/x-www-form-urlencoded` encoding of a string. -/
def formUrlEncode (s : String) : String :=
  String.join (s.data.map formEncodeChar)

/-- Serialization of `URLSearchParams` over a list of name/value pairs. -/
def urlSearchParamsToString (pairs : List (String × String)) : String :=
  String.intercalate "&" (pairs.map (fun e => formUrlEncode e.1 ++ "=" ++ formUrlEncode e.2))

/-- Shallow embedding of `getDatamuseRhymeUrl` (`src/ps5.js` lines
85-87).  The read of the DOM field `wordInput.value` is passed as the
explicit first argument; `rel_rhy` is the function's declared parameter,
which the body does not use. -/
def getDatamuseRhymeUrl (wordInputValue : String) (rel_rhy : String) : String :=
  "https://api.datamuse.com/words?" ++ urlSearchParamsToString [("rel_rhy", wordInputValue)]

/-- Shallow embedding of `getDatamuseSimilarToUrl` (`src/ps5.js` lines
98-100).  The read of the DOM field `wordInput.value` is passed as the
explicit first argument; `ml` is the function's declared parameter, which
the body does not use. -/
def getDatamuseSimilarToUrl (wordInputValue : String) (ml : String) : String :=
  "https://api.datamuse.com/words?" ++ urlSearchParamsToString [("ml", wordInputValue)]

/-- Outcome of `fetch(url).then((response) => response.json())`: either a
parsed array of word records, or a rejection (network failure or a body
that fails to parse). -/
inductive FetchOutcome where
  | success (data : List WordResult)
  | failure (err : String)

/-- Shallow embedding of `datamuseRequest` (`src/ps5.js` lines 65-74)
over an explicit fetch outcome and an explicit display state `σ`.
Returns the resulting display state, the list of messages sent to
`console.error`, and the list of data values the callback was invoked
with.  On success the callback runs on the state; on rejection the error
is logged, the callback is not invoked, and the state is untouched —
the rejection handler swallows the failure, so nothing is thrown to the
caller. -/
def datamuseRequest {σ : Type} (url : String) (outcome : FetchOutcome)
    (callback : List WordResult → σ → σ) (st : σ) : σ × List String × List (List WordResult) :=
  match outcome, url with
  | .success data, _ => (callback data st, [], [data])
  | .failure err, _ => (st, [err], [])

/-- Shallow embedding of `addToSavedWords` (`src/ps5.js` lines 108-112):
push the word onto the saved array, then set the saved-words display to
the array joined with a comma and space.  The module-level array is
passed as explicit state; the result is the new array and the new
display string. -/
def addToSavedWords (savedWordsArray : List String) (word : String) : List String × String :=
  let arr := savedWordsArray ++ [word]
  (arr, String.intercalate ", " arr)

/-- A sequence of save actions starting from page load: the array starts
empty and the `#saved_words` display starts as `(none)` (line 114). -/
def runSaves (words : List String) : List String × String :=
  words.foldl (fun acc w => addToSavedWords acc.1 w) ([], "(none)")

/-- The synchronous effect of one of the request-triggering UI handlers
(`src/ps5.js` lines 175-190): the HTML written into `#word_output`, the
URL handed to `datamuseRequest`, and the callback handed along with it. -/
structure TriggerEffect where
  wordOutput : String
  requestUrl : String
  callback : String → List WordResult → Display

/-- The click handler of the `#show_rhymes` button (lines 175-178), as a
function of the current `#word_input` value: write the loading
indicator, then request `getDatamuseRhymeUrl(wordInput.value)` with
`showRhymes` as callback. -/
def showRhymesClick (wordInputValue : String) : TriggerEffect :=
  { wordOutput := "<h2>...loading<h2>"
  , requestUrl := getDatamuseRhymeUrl wordInputValue wordInputValue
  , callback := showRhymes }

/-- The keypress handler of the `#word_input` field (lines 180-185), as a
function of the pressed key and the current field value: on `Enter` it
performs the same three steps as the rhymes click; any other key does
nothing. -/
def wordInputKeypress (key : String) (wordInputValue : String) : Option TriggerEffect :=
  if key = "Enter" then
    some { wordOutput := "<h2>...loading<h2>"
         , requestUrl := getDatamuseRhymeUrl wordInputValue wordInputValue
         , callback := showRhymes }
  else none

/-! Order-theoretic facts about the sort comparators. -/

theorem charListLEb_total : ∀ a b : List Char, charListLEb a b = true ∨ charListLEb b a = true := by
  intro a
  induction a with
  | nil => intro b; left; rfl
  | cons c cs ih =>
    intro b
    cases b with
    | nil => right; rfl
    | cons d ds =>
      by_cases h1 : c.toNat < d.toNat
      · left; simp [charListLEb, h1]
      · by_cases h2 : d.toNat < c.toNat
        · right; simp [charListLEb, h2]
        · rcases ih ds with h | h
          · left; simp [charListLEb, h1, h2, h]
          · right; simp [charListLEb, h1, h2, h]

theorem charListLEb_trans : ∀ a b c : List Char,
    charListLEb a b = true → charListLEb b c = true → charListLEb a c = true := by
  intro a
  induction a with
  | nil => intro b c _ _; rfl
  | cons x xs ih =>
    intro b c hab hbc
    cases b with
    | nil => simp [charListLEb] at hab
    | cons y ys =>
      cases c with
      | nil => simp [charListLEb] at hbc
      | cons z zs =>
        simp only [charListLEb] at hab hbc ⊢
        by_cases hxy : x.toNat < y.toNat
        · by_cases hyz : y.toNat < z.toNat
          · have : x.toNat < z.toNat := Nat.lt_trans hxy hyz
            simp [this]
          · by_cases hzy : z.toNat < y.toNat
            · simp [hyz, hzy] at hbc
            · have : x.toNat < z.toNat := by omega
              simp [this]
        · by_cases hyx : y.toNat < x.toNat
          · simp [hxy, hyx] at hab
          · by_cases hyz : y.toNat < z.toNat
            · have : x.toNat < z.toNat := by omega
              simp [this]
            · by_cases hzy : z.toNat < y.toNat
              · simp [hyz, hzy] at hbc
              · have hxz : ¬ x.toNat < z.toNat := by omega
                have hzx : ¬ z.toNat < x.toNat := by omega
                have hab' : charListLEb xs ys = true := by simpa [hxy, hyx] using hab
                have hbc' : charListLEb ys zs = true := by simpa [hyz, hzy] using hbc
                simp [hxz, hzx, ih ys zs hab' hbc']

theorem keyLEb_total (a b : JSVal) : keyLEb a b = true ∨ keyLEb b a = true := by
  cases a <;> cases b <;>
    first
      | exact Or.inl rfl
      | exact Or.inr rfl
      | exact charListLEb_total _ _

theorem keyLEb_trans (a b c : JSVal) :
    keyLEb a b = true → keyLEb b c = true → keyLEb a c = true := by
  cases a <;> cases b <;> cases c <;>
    simp only [keyLEb] <;>
    intro hab hbc <;>
    first
      | rfl
      | exact hab
      | exact hbc
      | simp at hab
      | simp at hbc
      | exact charListLEb_trans _ _ _ hab hbc

instance : IsTotal JSVal keyLE := ⟨fun a b => keyLEb_total a b⟩

instance : IsTrans JSVal keyLE := ⟨fun a b c => keyLEb_trans a b c⟩

instance : IsTotal String idxLE := ⟨fun _ _ => Nat.le_total _ _⟩

instance : IsTrans String idxLE := ⟨fun _ _ _ h h' => Nat.le_trans h h'⟩

/-- An element below which the comparator places every non-`undefined`
element can only be `undefined` itself. -/
theorem eq_undef_of_keyLE_undef {v : JSVal} (h : keyLE JSVal.undef v) : v = JSVal.undef := by
  cases v with
  | num n => simp [keyLE, keyLEb] at h
  | str s => simp [keyLE, keyLEb] at h
  | undef => rfl

/-! Facts about `lastMatch`. -/

theorem lastMatch_eq_some {α : Type} {q : α → Bool} :
    ∀ {l : List α} {v : α}, lastMatch q l = some v → v ∈ l ∧ q v = true := by
  intro l
  induction l with
  | nil => intro v h; simp [lastMatch] at h
  | cons k ks ih =>
    intro v h
    simp only [lastMatch] at h
    cases hks : lastMatch q ks with
    | some v' =>
      rw [hks] at h
      simp only [Option.elim] at h
      cases h
      rcases ih hks with ⟨hmem, hq⟩
      exact ⟨List.mem_cons_of_mem _ hmem, hq⟩
    | none =>
      rw [hks] at h
      simp only [Option.elim] at h
      by_cases hq : q k = true
      · rw [if_pos hq] at h
        cases h
        exact ⟨List.mem_cons_self _ _, hq⟩
      · rw [if_neg hq] at h
        cases h

theorem lastMatch_eq_none {α : Type} {q : α → Bool} :
    ∀ {l : List α}, lastMatch q l = none ↔ ∀ v ∈ l, q v = false := by
  intro l
  induction l with
  | nil => simp [lastMatch]
  | cons k ks ih =>
    simp only [lastMatch]
    cases hks : lastMatch q ks with
    | some v' =>
      simp only [Option.elim]
      constructor
      · intro h; cases h
      · intro h
        have := (ih.mpr (fun v hv => h v (List.mem_cons_of_mem _ hv)))
        rw [hks] at this; cases this
    | none =>
      simp only [Option.elim]
      constructor
      · intro h v hv
        rcases List.mem_cons.mp hv with rfl | hv'
        · by_cases hq : q v = true
          · rw [if_pos hq] at h; cases h
          · exact Bool.eq_false_iff.mpr (fun hc => hq hc)
        · exact ih.mp hks v hv'
      · intro h
        rw [if_neg (by simp [h k (List.mem_cons_self _ _)])]

theorem lastMatch_isSome_of_mem {α : Type} (q : α → Bool) {l : List α} {v : α}
    (hv : v ∈ l) (hq : q v = true) : (lastMatch q l).isSome = true := by
  cases h : lastMatch q l with
  | some _ => rfl
  | none =>
    have := lastMatch_eq_none.mp h v hv
    rw [hq] at this; cases this

theorem lastMatch_append_last {α : Type} {q : α → Bool} {a : α} (ha : q a = true) :
    ∀ l : List α, lastMatch q (l ++ [a]) = some a := by
  intro l
  induction l with
  | nil => simp [lastMatch, ha]
  | cons k ks ih => simp [lastMatch, ih]

/-! Small filter helpers. -/

theorem filter_all_true {α : Type} {q : α → Bool} :
    ∀ {l : List α}, (∀ x ∈ l, q x = true) → l.filter q = l := by
  intro l
  induction l with
  | nil => intro _; rfl
  | cons x xs ih =>
    intro h
    simp only [List.filter_cons, h x (List.mem_cons_self _ _), if_pos]
    rw [ih (fun y hy => h y (List.mem_cons_of_mem _ hy))]

theorem filter_all_false {α : Type} {q : α → Bool} :
    ∀ {l : List α}, (∀ x ∈ l, q x = false) → l.filter q = [] := by
  intro l
  induction l with
  | nil => intro _; rfl
  | cons x xs ih =>
    intro h
    simp only [List.filter_cons, h x (List.mem_cons_self _ _)]
    exact ih (fun y hy => h y (List.mem_cons_of_mem _ hy))

/-! Facts about the `Map` of groups. -/

theorem mapGet_insertGroup {α : Type} (k : JSVal) (x : α) :
    ∀ (m : List (JSVal × List α)) (v : JSVal),
      mapGet (insertGroup m k x) v = mapGet m v ++ (if k = v then [x] else []) := by
  intro m
  induction m with
  | nil =>
    intro v
    by_cases h : k = v <;> simp [insertGroup, mapGet, h]
  | cons e r ih =>
    intro v
    obtain ⟨k₀, g⟩ := e
    by_cases h0 : k₀ = k
    · subst h0
      by_cases hv : k₀ = v
      · subst hv; simp [insertGroup, mapGet]
      · simp [insertGroup, mapGet, hv]
    · by_cases hv : k₀ = v
      · subst hv
        have : ¬ k = k₀ := fun h => h0 h.symm
        simp [insertGroup, mapGet, h0, this]
      · simp [insertGroup, mapGet, h0, hv, ih]

theorem mapGet_buildMap {α : Type} (p : α → JSVal) (xs : List α) (v : JSVal) :
    mapGet (buildMap p xs) v = xs.filter (fun x => decide (p x = v)) := by
  suffices h : ∀ (m : List (JSVal × List α)),
      mapGet (xs.foldl (fun m x => insertGroup m (p x) x) m) v =
        mapGet m v ++ xs.filter (fun x => decide (p x = v)) by
    simpa [buildMap, mapGet] using h []
  induction xs with
  | nil => intro m; simp [mapGet]
  | cons x xs ih =>
    intro m
    simp only [List.foldl_cons, List.filter_cons]
    rw [ih, mapGet_insertGroup]
    by_cases h : p x = v
    · simp [h]
    · simp [h]

theorem keys_insertGroup {α : Type} (k : JSVal) (x : α) :
    ∀ m : List (JSVal × List α),
      (insertGroup m k x).map Prod.fst =
        if k ∈ m.map Prod.fst then m.map Prod.fst else m.map Prod.fst ++ [k] := by
  intro m
  induction m with
  | nil => simp [insertGroup]
  | cons e r ih =>
    obtain ⟨k₀, g⟩ := e
    by_cases h0 : k₀ = k
    · subst h0
      simp [insertGroup]
    · have : ¬ k = k₀ := fun h => h0 h.symm
      by_cases hk : k ∈ r.map Prod.fst
      · simp [insertGroup, h0, ih, hk, this]
      · simp [insertGroup, h0, ih, hk, this]

theorem mem_keys_buildMap {α : Type} (p : α → JSVal) (xs : List α) (v : JSVal) :
    v ∈ (buildMap p xs).map Prod.fst ↔ ∃ x ∈ xs, p x = v := by
  suffices h : ∀ (m : List (JSVal × List α)),
      (v ∈ ((xs.foldl (fun m x => insertGroup m (p x) x) m).map Prod.fst) ↔
        v ∈ m.map Prod.fst ∨ ∃ x ∈ xs, p x = v) by
    have := h []
    simpa [buildMap] using this
  induction xs with
  | nil => intro m; simp
  | cons x xs ih =>
    intro m
    simp only [List.foldl_cons]
    rw [ih]
    have hk : v ∈ (insertGroup m (p x) x).map Prod.fst ↔ v ∈ m.map Prod.fst ∨ p x = v := by
      rw [keys_insertGroup]
      by_cases h : p x ∈ m.map Prod.fst
      · rw [if_pos h]
        constructor
        · intro hv; exact Or.inl hv
        · rintro (hv | rfl)
          · exact hv
          · exact h
      · rw [if_neg h]
        simp only [List.mem_append, List.mem_singleton]
        constructor
        · rintro (hv | rfl)
          · exact Or.inl hv
          · exact Or.inr rfl
        · rintro (hv | rfl)
          · exact Or.inl hv
          · exact Or.inr rfl
    rw [hk]
    constructor
    · rintro ((hv | rfl) | ⟨y, hy, rfl⟩)
      · exact Or.inl hv
      · exact Or.inr ⟨x, List.mem_cons_self _ _, rfl⟩
      · exact Or.inr ⟨y, List.mem_cons_of_mem _ hy, rfl⟩
    · rintro (hv | ⟨y, hy, rfl⟩)
      · exact Or.inl (Or.inl hv)
      · rcases List.mem_cons.mp hy with rfl | hy'
        · exact Or.inl (Or.inr rfl)
        · exact Or.inr ⟨y, hy', rfl⟩

theorem nodup_keys_buildMap {α : Type} (p : α → JSVal) (xs : List α) :
    ((buildMap p xs).map Prod.fst).Nodup := by
  suffices h : ∀ (m : List (JSVal × List α)), (m.map Prod.fst).Nodup →
      (((xs.foldl (fun m x => insertGroup m (p x) x) m).map Prod.fst)).Nodup by
    exact h [] List.nodup_nil
  induction xs with
  | nil => intro m hm; simpa using hm
  | cons x xs ih =>
    intro m hm
    simp only [List.foldl_cons]
    apply ih
    rw [keys_insertGroup]
    by_cases h : p x ∈ m.map Prod.fst
    · rwa [if_pos h]
    · rw [if_neg h]
      exact List.Nodup.append hm (List.nodup_singleton _)
        (by simpa [List.disjoint_singleton] using h)

/-! Facts about plain objects. -/

theorem objGet_objSet {β : Type} (k : String) (v : β) :
    ∀ (o : List (String × β)) (s : String),
      objGet (objSet o k v) s = if k = s then some v else objGet o s := by
  intro o
  induction o with
  | nil =>
    intro s
    by_cases h : k = s <;> simp [objSet, objGet, h]
  | cons e r ih =>
    intro s
    obtain ⟨k₀, v₀⟩ := e
    by_cases h0 : k₀ = k
    · subst h0
      by_cases hs : k₀ = s
      · subst hs; simp [objSet, objGet]
      · simp [objSet, objGet, hs]
    · by_cases hs : k₀ = s
      · subst hs
        have : ¬ k = k₀ := fun h => h0 h.symm
        simp [objSet, objGet, h0, this]
      · simp [objSet, objGet, h0, hs, ih]

theorem objKeys_objSet {β : Type} (k : String) (v : β) :
    ∀ o : List (String × β),
      objKeys (objSet o k v) = if k ∈ objKeys o then objKeys o else objKeys o ++ [k] := by
  intro o
  induction o with
  | nil => simp [objSet, objKeys]
  | cons e r ih =>
    obtain ⟨k₀, v₀⟩ := e
    by_cases h0 : k₀ = k
    · subst h0
      simp [objSet, objKeys]
    · have hne : k ≠ k₀ := fun h => h0 h.symm
      simp only [objSet, if_neg h0, objKeys, List.map_cons, List.mem_cons, hne, false_or]
      simp only [objKeys] at ih
      rw [ih]
      by_cases hk : k ∈ List.map Prod.fst r
      · rw [if_pos hk, if_pos hk]
      · rw [if_neg hk, if_neg hk, List.cons_append]

theorem objGet_eq_none_iff {β : Type} :
    ∀ {o : List (String × β)} {s : String}, objGet o s = none ↔ s ∉ objKeys o := by
  intro o
  induction o with
  | nil => simp [objGet, objKeys]
  | cons e r ih =>
    intro s
    obtain ⟨k, v⟩ := e
    by_cases h : k = s
    · subst h; simp [objGet, objKeys]
    · have hsk : ¬ s = k := fun hc => h hc.symm
      simp [objGet, objKeys, h, ih, hsk]

theorem mem_of_objGet_eq_some {β : Type} :
    ∀ {o : List (String × β)} {s : String} {g : β}, objGet o s = some g → (s, g) ∈ o := by
  intro o
  induction o with
  | nil => intro s g h; simp [objGet] at h
  | cons e r ih =>
    intro s g h
    obtain ⟨k, v⟩ := e
    by_cases hk : k = s
    · subst hk
      simp only [objGet, if_pos rfl] at h
      cases h
      exact List.mem_cons_self _ _
    · rw [objGet, if_neg hk] at h
      exact List.mem_cons_of_mem _ (ih h)

theorem objGet_eq_some_of_mem {β : Type} :
    ∀ {o : List (String × β)}, (objKeys o).Nodup →
      ∀ {s : String} {g : β}, (s, g) ∈ o → objGet o s = some g := by
  intro o
  induction o with
  | nil => intro _ s g h; simp at h
  | cons e r ih =>
    intro hnd s g h
    obtain ⟨k, v⟩ := e
    rw [objKeys, List.map_cons, List.nodup_cons] at hnd
    rcases List.mem_cons.mp h with heq | hmem
    · cases heq
      simp [objGet]
    · have hks : k ≠ s := by
        intro hks
        subst hks
        exact hnd.1 (List.mem_map.mpr ⟨(k, g), hmem, rfl⟩)
      rw [objGet, if_neg hks]
      exact ih hnd.2 hmem

/-- Which property ends up in the object written by the sorted loop of
`groupBy`: for each string `s`, the group of the last sorted key whose
string form is `s` (later assignments overwrite earlier ones). -/
theorem objGet_foldl_objSet {α : Type} (m : List (JSVal × List α)) (s : String) :
    ∀ (ks : List JSVal) (r₀ : List (String × List α)),
      objGet (ks.foldl (fun r k => objSet r (jsToString k) (mapGet m k)) r₀) s =
        (lastMatch (fun k => decide (jsToString k = s)) ks).elim (objGet r₀ s)
          (fun k => some (mapGet m k)) := by
  intro ks
  induction ks with
  | nil => intro r₀; simp [lastMatch]
  | cons k ks ih =>
    intro r₀
    simp only [List.foldl_cons, lastMatch]
    rw [ih]
    cases hks : lastMatch (fun k => decide (jsToString k = s)) ks with
    | some k' => simp [Option.elim]
    | none =>
      simp only [Option.elim]
      rw [objGet_objSet]
      by_cases h : jsToString k = s
      · simp [h]
      · simp [h]

/-- The central characterization of `groupBy`: looking up property `s` in
the result yields, when some `Map` key has string form `s`, the full
input subsequence whose key value is the surviving key for `s`. -/
theorem objGet_groupBy {α : Type} (xs : List α) (p : α → JSVal) (s : String) :
    objGet (groupBy xs p) s =
      (survivor xs p s).map (fun v => xs.filter (fun x => decide (p x = v))) := by
  unfold groupBy survivor
  rw [objGet_foldl_objSet]
  cases h : lastMatch (fun v => decide (jsToString v = s))
      (sortKeys ((buildMap p xs).map Prod.fst)) with
  | none => simp [objGet]
  | some v => simp [mapGet_buildMap]

/-- The keys that survive into the object are exactly the string forms of
the sorted `Map` keys. -/
theorem mem_objKeys_groupBy {α : Type} (xs : List α) (p : α → JSVal) (s : String) :
    s ∈ objKeys (groupBy xs p) ↔ ∃ x ∈ xs, jsToString (p x) = s := by
  have hiff : s ∈ objKeys (groupBy xs p) ↔ objGet (groupBy xs p) s ≠ none := by
    constructor
    · intro h hn; exact (objGet_eq_none_iff.mp hn) h
    · intro h
      by_contra hc
      exact h (objGet_eq_none_iff.mpr hc)
  rw [hiff, objGet_groupBy]
  constructor
  · intro h
    cases hs : survivor xs p s with
    | none => rw [hs] at h; simp at h
    | some v =>
      rcases lastMatch_eq_some hs with ⟨hmem, hq⟩
      have hv : v ∈ (buildMap p xs).map Prod.fst :=
        ((List.perm_insertionSort keyLE _).mem_iff).mp hmem
      rcases (mem_keys_buildMap p xs v).mp hv with ⟨x, hx, hpx⟩
      exact ⟨x, hx, by rw [hpx]; exact of_decide_eq_true hq⟩
  · rintro ⟨x, hx, hsx⟩
    have hv : p x ∈ (buildMap p xs).map Prod.fst :=
      (mem_keys_buildMap p xs (p x)).mpr ⟨x, hx, rfl⟩
    have hv' : p x ∈ sortKeys ((buildMap p xs).map Prod.fst) :=
      ((List.perm_insertionSort keyLE _).mem_iff).mpr hv
    have := lastMatch_isSome_of_mem (fun v => decide (jsToString v = s)) hv'
      (decide_eq_true hsx)
    unfold survivor
    cases h : lastMatch (fun v => decide (jsToString v = s))
        (sortKeys ((buildMap p xs).map Prod.fst)) with
    | none => rw [h] at this; simp at this
    | some v => simp

/-- A surviving key has the string form it was looked up under, and is a
key of the `Map`. -/
theorem survivor_spec {α : Type} {xs : List α} {p : α → JSVal} {s : String} {v : JSVal}
    (h : survivor xs p s = some v) :
    jsToString v = s ∧ v ∈ (buildMap p xs).map Prod.fst := by
  rcases lastMatch_eq_some h with ⟨hmem, hq⟩
  exact ⟨of_decide_eq_true hq, ((List.perm_insertionSort keyLE _).mem_iff).mp hmem⟩

/-- A surviving key is the selector value of some input item. -/
theorem survivor_mem_image {α : Type} {xs : List α} {p : α → JSVal} {s : String} {v : JSVal}
    (h : survivor xs p s = some v) : ∃ x ∈ xs, p x = v :=
  (mem_keys_buildMap p xs v).mp (survivor_spec h).2

/-- If some input item's key has string form `s`, a survivor for `s`
exists. -/
theorem survivor_isSome {α : Type} (xs : List α) (p : α → JSVal) {s : String}
    (h : ∃ x ∈ xs, jsToString (p x) = s) : (survivor xs p s).isSome = true := by
  rcases h with ⟨x, hx, hsx⟩
  have hv : p x ∈ sortKeys ((buildMap p xs).map Prod.fst) :=
    ((List.perm_insertionSort keyLE _).mem_iff).mpr
      ((mem_keys_buildMap p xs (p x)).mpr ⟨x, hx, rfl⟩)
  exact lastMatch_isSome_of_mem _ hv (decide_eq_true hsx)

/-- The property keys of `groupBy`'s result are distinct. -/
theorem nodup_objKeys_foldl {α : Type} :
    ∀ (ks : List JSVal) (m : List (JSVal × List α)) (r₀ : List (String × List α)),
      (objKeys r₀).Nodup →
      (objKeys (ks.foldl (fun r k => objSet r (jsToString k) (mapGet m k)) r₀)).Nodup := by
  intro ks
  induction ks with
  | nil => intro m r₀ h; simpa using h
  | cons k ks ih =>
    intro m r₀ h
    simp only [List.foldl_cons]
    apply ih
    rw [objKeys_objSet]
    by_cases hk : jsToString k ∈ objKeys r₀
    · rwa [if_pos hk]
    · rw [if_neg hk]
      exact List.Nodup.append h (List.nodup_singleton _)
        (by simpa [List.disjoint_singleton] using hk)

theorem nodup_objKeys_groupBy {α : Type} (xs : List α) (p : α → JSVal) :
    (objKeys (groupBy xs p)).Nodup :=
  nodup_objKeys_foldl _ _ [] List.nodup_nil

/-- When some input item's key is `undefined`, the surviving key for the
property `"undefined"` is `undefined` itself: the default sort places the
`undefined` key last, so its group is written last and wins any
overwrite. -/
theorem survivor_undef {α : Type} {xs : List α} {p : α → JSVal}
    (h : ∃ x ∈ xs, p x = JSVal.undef) :
    survivor xs p "undefined" = some JSVal.undef := by
  have hu : JSVal.undef ∈ (buildMap p xs).map Prod.fst := by
    rcases h with ⟨x, hx, hpx⟩
    exact (mem_keys_buildMap p xs _).mpr ⟨x, hx, hpx⟩
  have hnd : ((buildMap p xs).map Prod.fst).Nodup := nodup_keys_buildMap p xs
  have hperm : List.Perm (sortKeys ((buildMap p xs).map Prod.fst))
      ((buildMap p xs).map Prod.fst) := List.perm_insertionSort keyLE _
  have hndl : (sortKeys ((buildMap p xs).map Prod.fst)).Nodup := hperm.nodup_iff.mpr hnd
  have hsorted : List.Pairwise keyLE (sortKeys ((buildMap p xs).map Prod.fst)) :=
    List.sorted_insertionSort keyLE _
  have hul : JSVal.undef ∈ sortKeys ((buildMap p xs).map Prod.fst) := hperm.mem_iff.mpr hu
  obtain ⟨l₁, l₂, heq⟩ := List.append_of_mem hul
  unfold survivor
  rw [heq] at hsorted hndl ⊢
  have hpw := List.pairwise_append.mp hsorted
  have hcons := List.pairwise_cons.mp hpw.2.1
  have hnotail : JSVal.undef ∉ l₂ := (List.nodup_cons.mp (List.nodup_append.mp hndl).2.1).1
  have hl₂ : l₂ = [] := by
    cases l₂ with
    | nil => rfl
    | cons y l₂' =>
      have hy : y = JSVal.undef := eq_undef_of_keyLE_undef (hcons.1 y (List.mem_cons_self _ _))
      subst hy
      exact absurd (List.mem_cons_self _ _) hnotail
  subst hl₂
  exact lastMatch_append_last (by decide) l₁

/-! Facts about `flattenGroups`. -/

theorem mem_flattenGroups {α : Type} :
    ∀ {o : List (String × List α)} {x : α}, x ∈ flattenGroups o ↔ ∃ e ∈ o, x ∈ e.2 := by
  intro o
  induction o with
  | nil => intro x; simp [flattenGroups]
  | cons e o ih =>
    intro x
    simp only [flattenGroups, List.mem_append, ih]
    constructor
    · rintro (hx | ⟨e', he', hx⟩)
      · exact ⟨e, List.mem_cons_self _ _, hx⟩
      · exact ⟨e', List.mem_cons_of_mem _ he', hx⟩
    · rintro ⟨e', he', hx⟩
      rcases List.mem_cons.mp he' with rfl | he''
      · exact Or.inl hx
      · exact Or.inr ⟨e', he'', hx⟩

theorem filter_flattenGroups {α : Type} (q : α → Bool) :
    ∀ o : List (String × List α),
      (flattenGroups o).filter q = flattenGroups (o.map (fun e => (e.1, e.2.filter q))) := by
  intro o
  induction o with
  | nil => rfl
  | cons e o ih => simp [flattenGroups, List.filter_append, ih]

theorem flattenGroups_eq_nil {α : Type} :
    ∀ {o : List (String × List α)}, (∀ e ∈ o, e.2 = []) → flattenGroups o = [] := by
  intro o
  induction o with
  | nil => intro _; rfl
  | cons e o ih =>
    intro h
    simp [flattenGroups, h e (List.mem_cons_self _ _),
      ih (fun e' he' => h e' (List.mem_cons_of_mem _ he'))]

/-- An object all of whose groups are empty except possibly the one at
key `s` flattens to exactly that group. -/
theorem flattenGroups_eq_getD {α : Type} {s : String} :
    ∀ {o : List (String × List α)}, (objKeys o).Nodup →
      (∀ e ∈ o, e.1 ≠ s → e.2 = []) →
      flattenGroups o = (objGet o s).getD [] := by
  intro o
  induction o with
  | nil => intro _ _; rfl
  | cons e o ih =>
    intro hnd hemp
    obtain ⟨k, g⟩ := e
    rw [objKeys, List.map_cons, List.nodup_cons] at hnd
    by_cases h : k = s
    · subst h
      have htail : flattenGroups o = [] := by
        apply flattenGroups_eq_nil
        intro e' he'
        apply hemp e' (List.mem_cons_of_mem _ he')
        intro hek
        exact hnd.1 (List.mem_map.mpr ⟨e', he', hek⟩)
      simp [flattenGroups, htail, objGet]
    · have hg : g = [] := hemp (k, g) (List.mem_cons_self _ _) h
      subst hg
      rw [flattenGroups, List.nil_append, objGet, if_neg h]
      exact ih hnd.2 (fun e' he' => hemp e' (List.mem_cons_of_mem _ he'))

theorem objGet_map_snd {α β : Type} (f : List α → β) :
    ∀ (o : List (String × List α)) (s : String),
      objGet (o.map (fun e => (e.1, f e.2))) s = (objGet o s).map f := by
  intro o
  induction o with
  | nil => intro s; rfl
  | cons e o ih =>
    intro s
    obtain ⟨k, g⟩ := e
    by_cases h : k = s <;> simp [objGet, h, ih]

theorem objKeys_map_snd {α β : Type} (f : List α → β) :
    ∀ o : List (String × List α), objKeys (o.map (fun e => (e.1, f e.2))) = objKeys o := by
  intro o
  induction o with
  | nil => rfl
  | cons e o ih => simp [objKeys] at ih ⊢

/-! The structure of `groupBy`'s entries, and idempotence machinery. -/

/-- Every entry of `groupBy`'s result is the full input subsequence whose
selector value is the surviving key of its property string. -/
theorem entry_groupBy {α : Type} {xs : List α} {p : α → JSVal} {s : String} {g : List α}
    (he : (s, g) ∈ groupBy xs p) :
    ∃ v, survivor xs p s = some v ∧ jsToString v = s ∧
      g = xs.filter (fun x => decide (p x = v)) := by
  have hget : objGet (groupBy xs p) s = some g :=
    objGet_eq_some_of_mem (nodup_objKeys_groupBy xs p) he
  rw [objGet_groupBy] at hget
  cases hs : survivor xs p s with
  | none => rw [hs] at hget; cases hget
  | some v =>
    rw [hs, Option.map_some'] at hget
    cases hget
    exact ⟨v, rfl, (survivor_spec hs).1, rfl⟩

/-- Every item of the flattened grouped output is an input item whose
selector value is a surviving key. -/
theorem mem_flatten_groupBy {α : Type} {xs : List α} {p : α → JSVal} {x : α}
    (hx : x ∈ flattenGroups (groupBy xs p)) :
    x ∈ xs ∧ ∃ s, survivor xs p s = some (p x) := by
  rcases mem_flattenGroups.mp hx with ⟨e, he, hxe⟩
  obtain ⟨s, g⟩ := e
  rcases entry_groupBy he with ⟨v, hs, _, rfl⟩
  rcases List.mem_filter.mp hxe with ⟨hxxs, hq⟩
  have hpx : p x = v := of_decide_eq_true hq
  subst hpx
  exact ⟨hxxs, s, hs⟩

/-- A surviving key value occurs as the key of some item of the flattened
grouped output. -/
theorem survivor_mem_flatten {α : Type} {xs : List α} {p : α → JSVal} {s : String} {v : JSVal}
    (hs : survivor xs p s = some v) :
    ∃ x ∈ flattenGroups (groupBy xs p), p x = v := by
  rcases survivor_mem_image hs with ⟨x, hx, hpx⟩
  have hget : objGet (groupBy xs p) s = some (xs.filter (fun x => decide (p x = v))) := by
    rw [objGet_groupBy, hs]; rfl
  refine ⟨x, mem_flattenGroups.mpr ⟨_, mem_of_objGet_eq_some hget, ?_⟩, hpx⟩
  exact List.mem_filter.mpr ⟨hx, decide_eq_true hpx⟩

/-- Regrouping the flattened output does not change which key survives
for any property string. -/
theorem survivor_flatten {α : Type} (xs : List α) (p : α → JSVal) (s : String) :
    survivor (flattenGroups (groupBy xs p)) p s = survivor xs p s := by
  cases hFs : survivor (flattenGroups (groupBy xs p)) p s with
  | some u =>
    rcases survivor_mem_image hFs with ⟨x, hxF, hpx⟩
    rcases mem_flatten_groupBy hxF with ⟨_, s', hs'⟩
    have hstr : jsToString u = s := (survivor_spec hFs).1
    have hs'' : survivor xs p s' = some u := by rw [hpx] at hs'; exact hs'
    have hss : s' = s := by
      have h1 := (survivor_spec hs'').1
      rw [hstr] at h1
      exact h1.symm
    rw [← hss]
    exact hs''.symm
  | none =>
    cases hxs : survivor xs p s with
    | none => rfl
    | some v =>
      rcases survivor_mem_flatten hxs with ⟨x, hxF, hpx⟩
      have hkey : v ∈ (buildMap p (flattenGroups (groupBy xs p))).map Prod.fst :=
        (mem_keys_buildMap p _ v).mpr ⟨x, hxF, hpx⟩
      have hsmem : v ∈ sortKeys ((buildMap p (flattenGroups (groupBy xs p))).map Prod.fst) :=
        ((List.perm_insertionSort keyLE _).mem_iff).mpr hkey
      unfold survivor at hFs
      have hnone := lastMatch_eq_none.mp hFs v hsmem
      rw [decide_eq_true (survivor_spec hxs).1] at hnone
      cases hnone

/-- Filtering the flattened output by a surviving key recovers exactly
that key's input subsequence. -/
theorem filter_flatten_survivor {α : Type} {xs : List α} {p : α → JSVal} {s : String} {v : JSVal}
    (hs : survivor xs p s = some v) :
    (flattenGroups (groupBy xs p)).filter (fun x => decide (p x = v)) =
      xs.filter (fun x => decide (p x = v)) := by
  have hstr : jsToString v = s := (survivor_spec hs).1
  rw [filter_flattenGroups]
  have hemp : ∀ e ∈ (groupBy xs p).map
      (fun e => (e.1, e.2.filter (fun x => decide (p x = v)))), e.1 ≠ s → e.2 = [] := by
    intro e he hne
    rcases List.mem_map.mp he with ⟨e₀, he₀, rfl⟩
    obtain ⟨s₀, g₀⟩ := e₀
    rcases entry_groupBy he₀ with ⟨v₀, _, hv₀s, rfl⟩
    apply filter_all_false
    intro x hx
    rcases List.mem_filter.mp hx with ⟨_, hq⟩
    have hpx : p x = v₀ := of_decide_eq_true hq
    have hvne : v₀ ≠ v := by
      intro hvv
      subst hvv
      exact hne (by rw [← hv₀s, hstr])
    rw [hpx]
    exact decide_eq_false (fun hc => hvne hc)
  have hnd : (objKeys ((groupBy xs p).map
      (fun e => (e.1, e.2.filter (fun x => decide (p x = v)))))).Nodup := by
    rw [objKeys_map_snd]
    exact nodup_objKeys_groupBy xs p
  rw [flattenGroups_eq_getD hnd hemp, objGet_map_snd, objGet_groupBy, hs, Option.map_some',
    Option.map_some', Option.getD_some]
  exact filter_all_true (fun x hx => (List.mem_filter.mp hx).2)

/-! Enumeration-order machinery for the grouped object. -/

/-- The property keys created by the sorted write loop are a subsequence
of the string forms of the sorted keys. -/
theorem objKeys_foldl_sublist {α : Type} (m : List (JSVal × List α)) :
    ∀ (ks : List JSVal) (r₀ : List (String × List α)),
      (objKeys (ks.foldl (fun r k => objSet r (jsToString k) (mapGet m k)) r₀)).Sublist
        (objKeys r₀ ++ ks.map jsToString) := by
  intro ks
  induction ks with
  | nil => intro r₀; simp
  | cons k ks ih =>
    intro r₀
    simp only [List.foldl_cons, List.map_cons]
    apply (ih (objSet r₀ (jsToString k) (mapGet m k))).trans
    rw [objKeys_objSet]
    by_cases hk : jsToString k ∈ objKeys r₀
    · rw [if_pos hk]
      exact List.Sublist.append (List.Sublist.refl _) (List.sublist_cons_self _ _)
    · rw [if_neg hk]
      rw [List.append_assoc, List.singleton_append]

theorem objKeys_groupBy_sublist {α : Type} (xs : List α) (p : α → JSVal) :
    (objKeys (groupBy xs p)).Sublist
      ((sortKeys ((buildMap p xs).map Prod.fst)).map jsToString) := by
  have h := objKeys_foldl_sublist (buildMap p xs)
    (sortKeys ((buildMap p xs).map Prod.fst)) []
  have heq : objKeys (groupBy xs p) =
      objKeys ((sortKeys ((buildMap p xs).map Prod.fst)).foldl
        (fun r k => objSet r (jsToString k) (mapGet (buildMap p xs) k)) []) := rfl
  rw [heq]
  simpa using h

/-- When no key is `undefined`, the created property keys are in
ascending string order (the order the default sort put them in). -/
theorem pairwise_strLE_objKeys_groupBy {α : Type} (xs : List α) (p : α → JSVal)
    (hdef : ∀ x ∈ xs, p x ≠ JSVal.undef) :
    List.Pairwise (fun a b => strLEb a b = true) (objKeys (groupBy xs p)) := by
  have hkeys : ∀ v ∈ sortKeys ((buildMap p xs).map Prod.fst), v ≠ JSVal.undef := by
    intro v hv
    have hv' : v ∈ (buildMap p xs).map Prod.fst :=
      ((List.perm_insertionSort keyLE _).mem_iff).mp hv
    rcases (mem_keys_buildMap p xs v).mp hv' with ⟨x, hx, hpx⟩
    rw [← hpx]
    exact hdef x hx
  have hsorted : List.Pairwise keyLE (sortKeys ((buildMap p xs).map Prod.fst)) :=
    List.sorted_insertionSort keyLE _
  have hstr : List.Pairwise (fun a b => strLEb a b = true)
      ((sortKeys ((buildMap p xs).map Prod.fst)).map jsToString) := by
    rw [List.pairwise_map]
    refine List.Pairwise.imp_of_mem ?_ hsorted
    intro a b ha hb hab
    have hau : a ≠ JSVal.undef := hkeys a ha
    have hbu : b ≠ JSVal.undef := hkeys b hb
    cases a <;> cases b <;> simp_all [keyLE, keyLEb]
  exact hstr.sublist (objKeys_groupBy_sublist xs p)

theorem mem_enumKeys {β : Type} (o : List (String × β)) (s : String) :
    s ∈ enumKeys o ↔ s ∈ objKeys o := by
  unfold enumKeys
  rw [List.mem_append, (List.perm_insertionSort idxLE _).mem_iff]
  constructor
  · rintro (h | h)
    · exact (List.mem_filter.mp h).1
    · exact (List.mem_filter.mp h).1
  · intro h
    by_cases hi : isArrayIndexStr s
    · exact Or.inl (List.mem_filter.mpr ⟨h, hi⟩)
    · exact Or.inr (List.mem_filter.mpr ⟨h, by simp [hi]⟩)

/-! Saved-words machinery. -/

theorem runSaves_from (arr : List String) (d : String) :
    ∀ words : List String,
      words.foldl (fun acc w => addToSavedWords acc.1 w) (arr, d) =
        if words = [] then (arr, d)
        else (arr ++ words, String.intercalate ", " (arr ++ words)) := by
  intro words
  induction words generalizing arr d with
  | nil => simp
  | cons w ws ih =>
    rw [List.foldl_cons,
      show addToSavedWords (arr, d).1 w =
        (arr ++ [w], String.intercalate ", " (arr ++ [w])) from rfl,
      ih]
    by_cases h : ws = []
    · subst h
      simp
    · simp [h]

/-! The claims. -/

/-- C1, counterexample: the claim that every input item appears in
exactly one output group fails when two distinct selector values share a
string form.  Grouping the two items `0` and `1` whose keys are the
number `2` and the string `"2"` yields a single group `"2"` containing
only item `1`; item `0` appears in no group of the output. -/
theorem c1_counterexample :
    groupBy [0, 1] (fun i => if i = 0 then JSVal.num 2 else JSVal.str "2") = [("2", [1])] ∧
    ((groupBy [0, 1] (fun i => if i = 0 then JSVal.num 2 else JSVal.str "2")).all
      (fun e => !(decide ((0 : Nat) ∈ e.2)))) = true := by
  decide

/-- C1, amended: provided no two distinct selector values among the
input's keys share the same string form, every input item appears in the
group keyed by the string form of its key, that group is exactly the
input subsequence sharing that key string (so relative input order is
preserved inside every group), and a group contains only items whose key
string is its own key — so each item is in exactly one group. -/
theorem c1_amended_thm {α : Type} (xs : List α) (p : α → JSVal)
    (hinj : ∀ x ∈ xs, ∀ y ∈ xs, jsToString (p x) = jsToString (p y) → p x = p y) :
    (∀ x ∈ xs, objGet (groupBy xs p) (jsToString (p x)) =
      some (xs.filter (fun y => decide (jsToString (p y) = jsToString (p x))))) ∧
    (∀ s g, objGet (groupBy xs p) s = some g → ∀ x ∈ g, jsToString (p x) = s) := by
  constructor
  · intro x hx
    have hsome := survivor_isSome xs p ⟨x, hx, rfl⟩
    cases hs : survivor xs p (jsToString (p x)) with
    | none => rw [hs] at hsome; cases hsome
    | some v =>
      rw [objGet_groupBy, hs, Option.map_some']
      congr 1
      rcases survivor_mem_image hs with ⟨y, hy, hpy⟩
      have hvstr : jsToString v = jsToString (p x) := (survivor_spec hs).1
      apply List.filter_congr
      intro z hz
      by_cases hzeq : p z = v
      · rw [hzeq]
        simp [hvstr]
      · have hne : jsToString (p z) ≠ jsToString (p x) := by
          intro hc
          apply hzeq
          have h1 : jsToString (p z) = jsToString (p y) := by
            rw [hc, ← hvstr, ← hpy]
          have h2 := hinj z hz y hy h1
          rw [h2, hpy]
        simp [hzeq, hne]
  · intro s g hget x hxg
    rw [objGet_groupBy] at hget
    cases hs : survivor xs p s with
    | none => rw [hs] at hget; cases hget
    | some v =>
      rw [hs, Option.map_some'] at hget
      cases hget
      rcases List.mem_filter.mp hxg with ⟨_, hq⟩
      rw [of_decide_eq_true hq]
      exact (survivor_spec hs).1

/-- Witness for C1: grouping `[1, 2, 3]` by parity (string-injective
keys) puts the odd items, in input order, in the group `"1"`. -/
theorem c1_witness :
    objGet (groupBy [1, 2, 3] (fun n => JSVal.num (n % 2))) "1" = some [1, 3] := by
  have h := (c1_amended_thm [1, 2, 3] (fun n => JSVal.num (n % 2)) (by decide)).1 1 (by decide)
  exact h.trans (by decide)

/-- C2, counterexample: grouping the numbers `10` and `2` by themselves
enumerates the keys as `["2", "10"]` (plain objects enumerate array-index
keys in ascending numeric order), while the default ascending comparison
of their string forms puts `"10"` strictly before `"2"` — so the keys are
not enumerable in the order the claim states. -/
theorem c2_counterexample :
    enumKeys (groupBy [(10 : Int), 2] (fun n => JSVal.num n)) = ["2", "10"] ∧
    strLEb "2" "10" = false := by
  decide

/-- C2, amended: for selector values that are never `undefined`, the
enumerable keys of the output split into the canonical array-index keys
first, in ascending numeric order, followed by the remaining keys in
ascending string order; and the key set is exactly the string forms of
the input keys, so it does not depend on input order. -/
theorem c2_amended_thm {α : Type} (xs : List α) (p : α → JSVal)
    (hdef : ∀ x ∈ xs, p x ≠ JSVal.undef) :
    (∀ s, s ∈ enumKeys (groupBy xs p) ↔ ∃ x ∈ xs, jsToString (p x) = s) ∧
    ∃ l₁ l₂, enumKeys (groupBy xs p) = l₁ ++ l₂ ∧
      (∀ s ∈ l₁, isArrayIndexStr s = true) ∧ List.Pairwise idxLE l₁ ∧
      (∀ s ∈ l₂, isArrayIndexStr s = false) ∧
      List.Pairwise (fun a b => strLEb a b = true) l₂ := by
  constructor
  · intro s
    rw [mem_enumKeys, mem_objKeys_groupBy]
  · refine ⟨List.insertionSort idxLE ((objKeys (groupBy xs p)).filter isArrayIndexStr),
      (objKeys (groupBy xs p)).filter (fun s => !isArrayIndexStr s), rfl, ?_, ?_, ?_, ?_⟩
    · intro s hs
      exact (List.mem_filter.mp (((List.perm_insertionSort idxLE _).mem_iff).mp hs)).2
    · exact List.sorted_insertionSort idxLE _
    · intro s hs
      have h := (List.mem_filter.mp hs).2
      simpa using h
    · exact (pairwise_strLE_objKeys_groupBy xs p hdef).sublist (List.filter_sublist _)

/-- Witness for C2: the key `"10"` is enumerable after grouping an input
containing the key `10`. -/
theorem c2_witness :
    "10" ∈ enumKeys (groupBy [(10 : Int), 2] (fun n => JSVal.num n)) := by
  have h := (c2_amended_thm [(10 : Int), 2] (fun n => JSVal.num n) (by decide)).1 "10"
  exact h.mpr ⟨10, by decide, by decide⟩

/-- C3: both URL builders ignore their declared query-word parameter and
read the input field instead.  With the field holding `"cat"`, calling
them with the argument `"dog"` yields URLs carrying `cat`, and changing
the argument does not change the returned URL — contradicting the
declared parameters (`rel_rhy`, "The word to be rhymed with"; `ml`) and
the claim that the URL is a function of the argument. -/
theorem c3_url_ignores_argument :
    getDatamuseRhymeUrl "cat" "dog" = "https://api.datamuse.com/words?rel_rhy=cat" ∧
    getDatamuseSimilarToUrl "cat" "dog" = "https://api.datamuse.com/words?ml=cat" ∧
    getDatamuseRhymeUrl "cat" "dog" = getDatamuseRhymeUrl "cat" "bird" ∧
    getDatamuseSimilarToUrl "cat" "dog" = getDatamuseSimilarToUrl "cat" "bird" :=
  ⟨by decide, by decide, rfl, rfl⟩

/-- C4: when the fetch or the parsing of the body fails, `datamuseRequest`
returns normally with the display state unchanged, exactly the error
logged to the console sink, and no callback invocation. -/
theorem c4_failure_no_callback :
    ∀ (σ : Type) (url err : String) (callback : List WordResult → σ → σ) (st : σ),
      datamuseRequest url (FetchOutcome.failure err) callback st = (st, [err], []) := by
  intro σ url err callback st
  rfl

/-- C5: every sequence of saves appends in order, and after the saves the
displayed saved-words string is the saved words joined by a comma and a
space, in save order; in particular saving `cat` then `hat` displays
`cat, hat` and saving `cat` twice displays `cat, cat`. -/
theorem c5_saved_words :
    (∀ words : List String,
      runSaves words =
        (words, if words = [] then "(none)" else String.intercalate ", " words)) ∧
    runSaves ["cat", "hat"] = (["cat", "hat"], "cat, hat") ∧
    runSaves ["cat", "cat"] = (["cat", "cat"], "cat, cat") := by
  refine ⟨?_, by decide, by decide⟩
  intro words
  have h := runSaves_from [] "(none)" words
  unfold runSaves
  rw [h]
  by_cases he : words = []
  · subst he; simp
  · simp [he]

/-- C6: regrouping the flattened grouped output by the same selector
reproduces the same mapping — every property lookup agrees and the key
sets coincide (hence the same keys, the same groups, and the same order
within each group). -/
theorem c6_group_idempotent {α : Type} (xs : List α) (p : α → JSVal) :
    (∀ s, objGet (groupBy (flattenGroups (groupBy xs p)) p) s = objGet (groupBy xs p) s) ∧
    (∀ s, s ∈ objKeys (groupBy (flattenGroups (groupBy xs p)) p) ↔
      s ∈ objKeys (groupBy xs p)) := by
  have hmain : ∀ s,
      objGet (groupBy (flattenGroups (groupBy xs p)) p) s = objGet (groupBy xs p) s := by
    intro s
    rw [objGet_groupBy, objGet_groupBy, survivor_flatten]
    cases hs : survivor xs p s with
    | none => rfl
    | some v =>
      rw [Option.map_some', Option.map_some', filter_flatten_survivor hs]
  refine ⟨hmain, fun s => ?_⟩
  constructor
  · intro h
    by_contra hc
    have h1 := objGet_eq_none_iff.mpr hc
    rw [← hmain s] at h1
    exact (objGet_eq_none_iff.mp h1) h
  · intro h
    by_contra hc
    have h1 := objGet_eq_none_iff.mpr hc
    rw [hmain s] at h1
    exact (objGet_eq_none_iff.mp h1) h

/-- C7: both renderers display the no-results indicator on an empty
result sequence and attach no save controls. -/
theorem c7_empty_render :
    ∀ wordInputValue : String,
      showRhymes wordInputValue [] = Display.noResults ∧
      showSynonyms wordInputValue [] = Display.noResults ∧
      saveControls (showRhymes wordInputValue []) = [] ∧
      saveControls (showSynonyms wordInputValue []) = [] := by
  intro v
  exact ⟨rfl, rfl, rfl, rfl⟩

/-- C8: grouping an empty input yields an empty mapping, and whenever the
selector returns `undefined` for at least one item, all such items are
kept together as the group stored under the property `"undefined"`. -/
theorem c8_undefined_group {α : Type} (p : α → JSVal) (xs : List α)
    (h : ∃ x ∈ xs, p x = JSVal.undef) :
    groupBy ([] : List α) p = [] ∧
    objGet (groupBy xs p) "undefined" =
      some (xs.filter (fun x => decide (p x = JSVal.undef))) := by
  refine ⟨rfl, ?_⟩
  rw [objGet_groupBy, survivor_undef h]
  rfl

/-- Witness for C8: grouping the one-item list `[5]` with an
always-`undefined` selector stores `[5]` under `"undefined"`. -/
theorem c8_witness :
    objGet (groupBy [5] (fun _ : Nat => JSVal.undef)) "undefined" = some [5] := by
  have h := (c8_undefined_group (fun _ : Nat => JSVal.undef) [5]
    ⟨5, List.mem_singleton_self 5, rfl⟩).2
  exact h.trans (by decide)

/-- C9: the Enter-key handler of the word-input field produces exactly
the effect of the show-rhymes click handler: the loading indicator is
written, the rhyme URL is built from the current input field's word, and
the grouped rhymes renderer is the callback of the issued request. -/
theorem c9_enter_equiv_click :
    ∀ wordInputValue : String,
      wordInputKeypress "Enter" wordInputValue = some (showRhymesClick wordInputValue) ∧
      (showRhymesClick wordInputValue).wordOutput = "<h2>...loading<h2>" ∧
      (showRhymesClick wordInputValue).requestUrl =
        getDatamuseRhymeUrl wordInputValue wordInputValue ∧
      (showRhymesClick wordInputValue).callback = showRhymes := by
  intro v
  exact ⟨rfl, rfl, rfl, rfl⟩

/-- C10: the keys of `groupBy`'s final output are the string forms of the
selector's values; the intermediate `Map` keeps the number `2` and the
string `"2"` as separate groups, but the plain-object conversion keys
both by `"2"`, so the group written later overwrites the earlier one and
the items of the earlier group (item `0`) are absent from the output. -/
theorem c10_string_key_overwrite :
    (∀ (α : Type) (xs : List α) (p : α → JSVal) (s : String),
      s ∈ objKeys (groupBy xs p) → ∃ x ∈ xs, jsToString (p x) = s) ∧
    buildMap (fun i => if i = 0 then JSVal.num 2 else JSVal.str "2") [0, 1] =
      [(JSVal.num 2, [0]), (JSVal.str "2", [1])] ∧
    groupBy [0, 1] (fun i => if i = 0 then JSVal.num 2 else JSVal.str "2") = [("2", [1])] := by
  refine ⟨?_, by decide, by decide⟩
  intro α xs p s hs
  exact (mem_objKeys_groupBy xs p s).mp hs

/-- Witness for C10: the output key `"2"` of the collision example is the
string form of the key of an input item. -/
theorem c10_witness :
    ∃ x ∈ [0, 1],
      jsToString ((fun i => if i = 0 then JSVal.num 2 else JSVal.str "2") x) = "2" :=
  c10_string_key_overwrite.1 Nat [0, 1]
    (fun i => if i = 0 then JSVal.num 2 else JSVal.str "2") "2" (by decide)

end PS5
